import Mathlib

/-!
Shallow embedding of the gitpanic recovery core: the safety evaluator
(`src/core/safetyChecks.ts`), the action-history ledger
(`src/core/actionHistory.ts`), the compound move-commits operation
(`src/commands/moveCommits.ts`), the reflog deleted-branch scan
(`recoverBranch`) and the ongoing-operation continue handler
(`performContinue`).  Git primitives (reset, cherry-pick, checkout, ...)
are external effects; operations are modelled as pure functions that
return the ordered list of primitive calls they issue together with
their results, and the ledger is modelled as explicit state passing over
the list of recorded actions.
-/

namespace GitPanic

/-- A commit as returned by history queries: hash, message, author, date. -/
structure Commit where
  hash : String
  message : String
  author : String
  date : String
deriving DecidableEq, Repr

/-- A repository position snapshot: HEAD hash and current branch
(`none` when HEAD is detached), as captured by `recordAction` /
`completeAction`. -/
structure RepoPos where
  headHash : String
  branch : Option String
deriving DecidableEq, Repr

/-- The `ActionType` union of `actionHistory.ts`. -/
inductive ActionType
  | undoCommitA
  | amendMessage
  | amendCommit
  | moveCommitsA
  | recoverBranchA
  | createBranch
deriving DecidableEq, Repr

/-- The `RecordedAction` interface of `actionHistory.ts`.  The
`timestamp` is modelled as a plain number; `afterState` and
`undoCommand` are absent (`none`) on a freshly opened record. -/
structure RecordedAction where
  id : String
  type : ActionType
  timestamp : Nat
  description : String
  beforeState : RepoPos
  afterState : Option RepoPos := none
  undoCommand : Option String := none
  canUndo : Bool := true
deriving DecidableEq, Repr

/-- The ongoing-operation tags handled by `detachedHead`-style commands. -/
inductive OngoingOp
  | merge
  | rebase
  | cherryPickOp
  | bisect
deriving DecidableEq, Repr

/-- A primitive git mutation issued by the executor.  Each compound
operation is modelled as the ordered list of these it performs. -/
inductive GitEffect
  | checkoutBranch (name : String)
  | checkoutNewBranch (name startPoint : String)
  | cherryPick (hash : String)
  | softReset (ref : String)
  | mixedReset (ref : String)
  | hardReset (ref : String)
  | continueOp (op : OngoingOp)
deriving DecidableEq, Repr

/-- The read-only repository facts consumed by the safety evaluator:
`allCommits` is the full history newest-first (so `getRecentCommits n`
is `take n`), `pushed` is the `isPushed` query, `branches` the list of
existing branch names. -/
structure RepoModel where
  allCommits : List Commit
  hasUncommittedChanges : Bool
  pushed : String → Bool
  branches : List String

/-- `git.getRecentCommits(n)`: the `n` most recent commits. -/
def getRecentCommits (repo : RepoModel) (n : Nat) : List Commit :=
  repo.allCommits.take n

/-- `git.getLastCommit()`: the most recent commit, if any. -/
def getLastCommit (repo : RepoModel) : Option Commit :=
  repo.allCommits.head?

/-- The `SafetyCheckResult` interface of `safetyChecks.ts`. -/
structure SafetyCheckResult where
  safe : Bool
  warnings : List String
  blockers : List String
deriving DecidableEq, Repr

/-- The reset modes of `undoCommit.ts`. -/
inductive ResetMode
  | soft
  | mixed
  | hard
deriving DecidableEq, Repr

/-- `checkBeforeReset(mode, commitCount)` from `safetyChecks.ts`:
a blocker when fewer than `commitCount` commits exist, a warning when a
hard reset would discard uncommitted changes, and one warning per
pushed commit in the affected range; `safe` is `blockers.length === 0`. -/
def checkBeforeReset (repo : RepoModel) (mode : ResetMode) (commitCount : Nat) :
    SafetyCheckResult :=
  let commits := getRecentCommits repo commitCount
  let blockers : List String :=
    if commits.length < commitCount then
      ["Only " ++ toString commits.length ++ " commits available, cannot undo " ++
        toString commitCount]
    else []
  let hardWarnings : List String :=
    if mode = ResetMode.hard then
      if repo.hasUncommittedChanges then
        ["Hard reset will discard all uncommitted changes"]
      else []
    else []
  let pushWarnings : List String :=
    commits.filterMap (fun c =>
      if repo.pushed c.hash then
        some ("Commit \"" ++ c.message.take 50 ++
          "\" has been pushed. Undoing will require force push.")
      else none)
  { safe := blockers.length == 0
    warnings := hardWarnings ++ pushWarnings
    blockers := blockers }

/-- `checkBeforeAmend()` from `safetyChecks.ts`. -/
def checkBeforeAmend (repo : RepoModel) : SafetyCheckResult :=
  match getLastCommit repo with
  | none =>
    { safe := false, warnings := [], blockers := ["No commits to amend"] }
  | some c =>
    let warnings : List String :=
      if repo.pushed c.hash then
        ["This commit has been pushed. Amending will require a force push."]
      else []
    let blockers : List String := []
    { safe := blockers.length == 0, warnings := warnings, blockers := blockers }

/-- One character of the branch-name validator `[a-zA-Z0-9/_-]`. -/
def validBranchChar (c : Char) : Bool :=
  c.isAlpha || c.isDigit || c == '/' || c == '_' || c == '-'

/-- The branch-name validator regex test of `safetyChecks.ts`:
nonempty and all characters in `[a-zA-Z0-9/_-]`. -/
def validBranchName (s : String) : Bool :=
  !s.isEmpty && s.toList.all validBranchChar

/-- `checkBeforeBranchCreate(branchName)` from `safetyChecks.ts`. -/
def checkBeforeBranchCreate (repo : RepoModel) (branchName : String) :
    SafetyCheckResult :=
  let nameBlockers : List String :=
    if repo.branches.contains branchName then
      ["Branch \"" ++ branchName ++ "\" already exists"]
    else []
  let charBlockers : List String :=
    if !validBranchName branchName then
      ["Branch name contains invalid characters"]
    else []
  let blockers := nameBlockers ++ charBlockers
  { safe := blockers.length == 0, warnings := [], blockers := blockers }

/-- `showSafetyWarnings(result)` from `safetyChecks.ts`: a blocked
result always yields `false`; a result with warnings defers to the
user's modal choice (`userProceeds`); otherwise `true`. -/
def showSafetyWarnings (result : SafetyCheckResult) (userProceeds : Bool) : Bool :=
  if !result.safe then false
  else if result.warnings.length > 0 then userProceeds
  else true

/-- The single reset primitive dispatched by `undoLastCommit`. -/
def resetEffect (mode : ResetMode) (ref : String) : GitEffect :=
  match mode with
  | ResetMode.soft => GitEffect.softReset ref
  | ResetMode.mixed => GitEffect.mixedReset ref
  | ResetMode.hard => GitEffect.hardReset ref

/-- The mutation tail of `undoLastCommit` (`undoCommit.ts` lines 73-95):
run `checkBeforeReset`, gate on `showSafetyWarnings`, and only then
issue the single reset primitive on `HEAD~commitCount`.  Returns the
ordered list of git mutations performed. -/
def undoLastCommitRun (repo : RepoModel) (mode : ResetMode) (commitCount : Nat)
    (userProceeds : Bool) : List GitEffect :=
  let safetyCheck := checkBeforeReset repo mode commitCount
  if showSafetyWarnings safetyCheck userProceeds then
    [resetEffect mode ("HEAD~" ++ toString commitCount)]
  else []

/-! ## Action history ledger (`actionHistory.ts`)

The manager's mutable `actions` array is modelled as an explicit
`List RecordedAction`, oldest first (`push` appends at the end). -/

/-- `recordAction(type, description, canUndo)`: the freshly opened
record, with only `beforeState` populated. -/
def recordActionRecord (id : String) (timestamp : Nat) (t : ActionType)
    (description : String) (before : RepoPos) (canUndo : Bool := true) :
    RecordedAction :=
  { id := id
    type := t
    timestamp := timestamp
    description := description
    beforeState := before
    canUndo := canUndo }

/-- `completeAction(action)` on a single record: capture the current
position as `afterState`, and set `undoCommand` when the record is
undoable and HEAD actually moved. -/
def completeActionRecord (now : RepoPos) (a : RecordedAction) : RecordedAction :=
  let a' := { a with afterState := some now }
  if a.canUndo && a.beforeState.headHash != now.headHash then
    { a' with undoCommand := some ("git reset --hard " ++ a.beforeState.headHash) }
  else a'

/-- `saveToStorage`: `actions.slice(-maxActionHistory)`.  JavaScript
`slice(-0)` equals `slice(0)` and returns the whole array, so a
configured maximum of `0` performs no trimming at all; for a positive
maximum it keeps the last `maxHist` entries. -/
def trimActions (maxHist : Nat) (h : List RecordedAction) : List RecordedAction :=
  if maxHist = 0 then h else h.drop (h.length - maxHist)

/-- Apply `f` to the last element of the list, the position of the
record most recently appended by `recordAction` (the object that
`completeAction` mutates in place). -/
def updateLast (f : RecordedAction → RecordedAction) :
    List RecordedAction → List RecordedAction
  | [] => []
  | [a] => [f a]
  | a :: b :: rest => a :: updateLast f (b :: rest)

/-- `completeAction` acting on the manager state when the record being
completed is the most recently appended one: update it in place, then
persist with trimming. -/
def completeLastAction (now : RepoPos) (maxHist : Nat)
    (h : List RecordedAction) : List RecordedAction :=
  trimActions maxHist (updateLast (completeActionRecord now) h)

/-- The scan predicate of `getLastUndoableAction`:
`actions[i].canUndo && actions[i].undoCommand`. -/
def undoable (a : RecordedAction) : Bool :=
  a.canUndo && a.undoCommand.isSome

/-- `getLastUndoableAction()`: scan from the newest record down,
returning the first record with `canUndo` and an `undoCommand`. -/
def getLastUndoableAction (h : List RecordedAction) : Option RecordedAction :=
  h.reverse.find? undoable

/-- Set `canUndo := false` on the record `getLastUndoableAction` finds,
i.e. on the last undoable element of the list. -/
def markLastUndoable : List RecordedAction → List RecordedAction
  | [] => []
  | a :: rest =>
    if rest.any undoable then a :: markLastUndoable rest
    else if undoable a then { a with canUndo := false } :: rest
    else a :: rest

/-- The result and state of one `undoLastAction()` call: the returned
`{success, message}`, the manager's action list afterwards, and the
hash passed to `git.hardReset` (or `none` when no reset was issued). -/
structure UndoOutcome where
  success : Bool
  message : String
  history : List RecordedAction
  resetTo : Option String
deriving DecidableEq, Repr

/-- `undoLastAction()` from `actionHistory.ts`: find the most recent
undoable record; fail distinctly when none exists or its recorded hash
is empty; otherwise hard-reset to `beforeState.headHash`, flip that
record's `canUndo` to false and persist.  `resetError` models the
`try/catch` around `git.hardReset`: `some e` means the reset threw with
message `e`, in which case the record is left untouched. -/
def undoLastAction (resetError : Option String) (maxHist : Nat)
    (h : List RecordedAction) : UndoOutcome :=
  match getLastUndoableAction h with
  | none =>
    { success := false, message := "No undoable actions in history"
      history := h, resetTo := none }
  | some lastAction =>
    if lastAction.beforeState.headHash = "" then
      { success := false, message := "Cannot undo: missing before state"
        history := h, resetTo := none }
    else
      match resetError with
      | none =>
        { success := true
          message := "Undid \"" ++ lastAction.description ++ "\""
          history := trimActions maxHist (markLastUndoable h)
          resetTo := some lastAction.beforeState.headHash }
      | some e =>
        { success := false
          message := "Failed to undo: " ++ e
          history := h
          resetTo := some lastAction.beforeState.headHash }

/-! ## Move commits (`moveCommits.ts`) -/

/-- The cherry-pick loop of `moveCommits` (lines 130-138): pick each
commit in order, stopping at the first failing one.  `cherryOk h`
tells whether `git.cherryPick(h)` succeeds.  Returns the cherry-pick
calls issued (the failing attempt included) and the hash of the
failing commit, if any. -/
def cherryPickLoop (cherryOk : String → Bool) :
    List Commit → List GitEffect × Option String
  | [] => ([], none)
  | c :: rest =>
    if cherryOk c.hash then
      let r := cherryPickLoop cherryOk rest
      (GitEffect.cherryPick c.hash :: r.1, r.2)
    else ([GitEffect.cherryPick c.hash], some c.hash)

/-- The outcome of the mutation phase of `moveCommits`: the ordered
primitive calls, the failing commit hash if a cherry-pick failed, a
flag recording whether `completeAction` was reached, and the message
shown to the user. -/
structure MoveOutcome where
  effects : List GitEffect
  failedCommit : Option String
  completed : Bool
  message : String
deriving DecidableEq, Repr

/-- Step (1) of `moveCommits`: create the target branch at
`baseBranch~count` (where `baseBranch` is `currentBranch || 'HEAD'`),
or plain-checkout an existing target branch. -/
def moveSetupEffect (isNew : Bool) (targetBranch currentBranch : String)
    (count : Nat) : GitEffect :=
  if isNew then
    let baseBranch := if currentBranch = "" then "HEAD" else currentBranch
    GitEffect.checkoutNewBranch targetBranch (baseBranch ++ "~" ++ toString count)
  else GitEffect.checkoutBranch targetBranch

/-- The mutation phase of `moveCommits` (lines 120-146): compute
`commitsToMove` as the selected `count` newest commits reversed to
oldest-first, switch to the target branch, cherry-pick them in order,
and only when every cherry-pick succeeded check out the source branch
back and hard-reset it by `count`.  `commits` is newest-first as
returned by `getRecentCommits`; `currentBranch` is the source branch
(the source code asserts it non-null with `currentBranch!`). -/
def moveCommitsRun (commits : List Commit) (count : Nat) (isNew : Bool)
    (targetBranch currentBranch : String) (cherryOk : String → Bool) :
    MoveOutcome :=
  let commitsToMove := (commits.take count).reverse
  let setup := moveSetupEffect isNew targetBranch currentBranch count
  match cherryPickLoop cherryOk commitsToMove with
  | (es, some failedHash) =>
    { effects := setup :: es
      failedCommit := some failedHash
      completed := false
      message := "Cherry-pick failed for commit " ++ failedHash.take 7 ++
        ". Please resolve conflicts manually." }
  | (es, none) =>
    { effects := setup :: (es ++
        [GitEffect.checkoutBranch currentBranch,
         GitEffect.hardReset ("HEAD~" ++ toString count)])
      failedCommit := none
      completed := true
      message := "Moved " ++ toString count ++ " commit(s) to \"" ++
        targetBranch ++ "\"" }

/-- `moveCommits` together with its ledger bracket (lines 115-143):
open a record via `recordAction`, run the mutation phase, and call
`completeAction` only when no cherry-pick failed (the `catch` branch
returns early, leaving the record open). -/
def moveCommitsWithLedger (h : List RecordedAction) (maxHist : Nat)
    (id : String) (ts : Nat) (before afterPos : RepoPos)
    (commits : List Commit) (count : Nat) (isNew : Bool)
    (targetBranch currentBranch : String) (cherryOk : String → Bool) :
    List RecordedAction × MoveOutcome :=
  let descr := "Moved " ++ toString count ++ " commit(s) to " ++ targetBranch
  let action := recordActionRecord id ts ActionType.moveCommitsA descr before true
  let h₁ := h ++ [action]
  let out := moveCommitsRun commits count isNew targetBranch currentBranch cherryOk
  if out.failedCommit.isSome then (h₁, out)
  else (completeLastAction afterPos maxHist h₁, out)

/-- The branch the user is on after a list of effects, starting from
`b`: checkouts switch branches, all other primitives stay put. -/
def branchAfter (b : String) : List GitEffect → String
  | [] => b
  | e :: es =>
    branchAfter
      (match e with
        | GitEffect.checkoutBranch n => n
        | GitEffect.checkoutNewBranch n _ => n
        | _ => b) es

/-! ## Continue handler (`performContinue`) -/

/-- Substring test over character lists, the JavaScript
`String.includes`. -/
def listContainsSub (needle : List Char) : List Char → Bool
  | [] => needle.isEmpty
  | c :: cs => needle.isPrefixOf (c :: cs) || listContainsSub needle cs

/-- `hay.includes(needle)`. -/
def containsSub (needle hay : String) : Bool :=
  listContainsSub needle.toList hay.toList

/-- Modelled from the spec: the claim's reading of "matches the pattern
`conflict` (case variants included)", i.e. case-insensitive substring
matching of `conflict`.  The source (`performContinue`) instead tests
only the two exact spellings `conflict` and `CONFLICT`. -/
def matchesConflictCaseInsensitive (msg : String) : Bool :=
  listContainsSub "conflict".toList (msg.toList.map Char.toLower)

/-- How a `performContinue` call ends: the continue succeeded, the
failure was routed back as unresolved conflicts, or the raw error was
re-raised. -/
inductive ContinueOutcome
  | success
  | unresolvedConflicts
  | raised (msg : String)
deriving DecidableEq, Repr

/-- The primitive calls issued by `performContinue`: the single
`git <op> --continue` (the `switch` has no `bisect` case). -/
def continueEffects (op : OngoingOp) : List GitEffect :=
  match op with
  | OngoingOp.bisect => []
  | _ => [GitEffect.continueOp op]

/-- `performContinue(operation)`: run the continue primitive;
`continueError` is `some msg` when it threw with message `msg`.  An
error whose message includes `conflict` or `CONFLICT` is routed back as
unresolved conflicts; any other error is re-raised unchanged. -/
def performContinue (op : OngoingOp) (continueError : Option String) :
    ContinueOutcome × List GitEffect :=
  (match continueError with
    | none => ContinueOutcome.success
    | some msg =>
      if containsSub "conflict" msg || containsSub "CONFLICT" msg then
        ContinueOutcome.unresolvedConflicts
      else ContinueOutcome.raised msg,
   continueEffects op)

/-! ## Reflog deleted-branch scan (`recoverBranch`) -/

/-- A reflog entry: commit hash and message. -/
structure ReflogEntry where
  hash : String
  message : String
deriving DecidableEq, Repr

/-- A parsed `checkout: moving from A to B` reflog entry. -/
structure BranchMove where
  fromBranch : String
  toBranch : String
  hash : String
  message : String
deriving DecidableEq, Repr

/-- The literal part of the pattern
`/checkout: moving from (\S+) to (\S+)/`. -/
def moveMarker : List Char := "checkout: moving from ".toList

/-- Attempt the regex `checkout: moving from (\S+) to (\S+)` at the
start of `cs`: the literal marker, a maximal nonempty run of
non-whitespace characters, the literal ` to `, and another maximal
nonempty run of non-whitespace characters. -/
def tryMatchMove (cs : List Char) : Option (String × String) :=
  if moveMarker.isPrefixOf cs then
    let rest := cs.drop moveMarker.length
    let a := rest.takeWhile (fun c => !c.isWhitespace)
    if a.isEmpty then none
    else
      let rest₂ := rest.drop a.length
      if " to ".toList.isPrefixOf rest₂ then
        let b := (rest₂.drop 4).takeWhile (fun c => !c.isWhitespace)
        if b.isEmpty then none else some (a.asString, b.asString)
      else none
  else none

/-- `message.match(/checkout: moving from (\S+) to (\S+)/)`: the
leftmost position at which the whole pattern matches, yielding the two
captured tokens.  (The preceding `includes` filter of the source is
subsumed: a successful match contains the literal marker.) -/
def matchMove : List Char → Option (String × String)
  | [] => none
  | c :: cs =>
    match tryMatchMove (c :: cs) with
    | some r => some r
    | none => matchMove cs

/-- The `branchMoves` list of `recoverBranch`: reflog entries (in
reflog order, newest first) whose message matches the pattern. -/
def branchMoves (reflog : List ReflogEntry) : List BranchMove :=
  reflog.filterMap (fun e =>
    (matchMove e.message.toList).map (fun p =>
      { fromBranch := p.1, toBranch := p.2, hash := e.hash, message := e.message }))

/-- The bare-hash test `/^[0-9a-f]{7,40}$/`. -/
def isHashLike (s : String) : Bool :=
  decide (7 ≤ s.length) && decide (s.length ≤ 40) &&
    s.toList.all (fun c => c.isDigit || ('a' ≤ c && c ≤ 'f'))

/-- The `deletedBranches` map construction of `recoverBranch` (lines
39-48): walk the moves in order, inserting `fromBranch ↦ hash` when the
name is not an existing branch, not already collected (first occurrence
wins), not the literal `HEAD`, and not a bare hash.  The JavaScript
`Map` preserves insertion order; it is modelled as an association
list. -/
def collectDeleted (existing : List String) (acc : List (String × String)) :
    List BranchMove → List (String × String)
  | [] => acc
  | m :: rest =>
    if !existing.contains m.fromBranch &&
        (acc.find? (fun p => p.1 == m.fromBranch)).isNone then
      if m.fromBranch != "HEAD" && !isHashLike m.fromBranch then
        collectDeleted existing (acc ++ [(m.fromBranch, m.hash)]) rest
      else collectDeleted existing acc rest
    else collectDeleted existing acc rest

/-- The deleted-branch candidates `recoverBranch` offers, as
`(name, recorded hash)` pairs in insertion order. -/
def deletedBranchesOf (existing : List String) (reflog : List ReflogEntry) :
    List (String × String) :=
  collectDeleted existing [] (branchMoves reflog)

/-! ## Concrete witness inputs -/

/-- A repository with no commits, uncommitted changes present. -/
def repoEmpty : RepoModel :=
  { allCommits := [], hasUncommittedChanges := true
    pushed := fun _ => false, branches := ["main"] }

/-- A fixed repository position used in witnesses. -/
def posA : RepoPos := { headHash := "aaa", branch := some "main" }

/-- A second fixed repository position used in witnesses. -/
def posB : RepoPos := { headHash := "bbb", branch := some "main" }

/-- A sample commit (the older one in two-commit witnesses). -/
def sampleCommit1 : Commit :=
  { hash := "h1", message := "first", author := "au", date := "d1" }

/-- A sample commit (the newer one in two-commit witnesses). -/
def sampleCommit2 : Commit :=
  { hash := "h2", message := "second", author := "au", date := "d2" }

/-- The repository position after the `n`-th step of the capped-history
scenario. -/
def scenarioPos (n : Nat) : RepoPos :=
  { headHash := "h" ++ toString n, branch := some "main" }

/-- The persisted log of the spec scenario: history capped at 2,
actions `A`, `B`, `C` recorded and completed in order. -/
def scenarioLog : List RecordedAction :=
  let h₁ := ([] : List RecordedAction) ++
    [recordActionRecord "A" 0 ActionType.undoCommitA "A" (scenarioPos 0) true]
  let h₂ := completeLastAction (scenarioPos 1) 2 h₁
  let h₃ := h₂ ++
    [recordActionRecord "B" 1 ActionType.undoCommitA "B" (scenarioPos 1) true]
  let h₄ := completeLastAction (scenarioPos 2) 2 h₃
  let h₅ := h₄ ++
    [recordActionRecord "C" 2 ActionType.undoCommitA "C" (scenarioPos 2) true]
  completeLastAction (scenarioPos 3) 2 h₅

/-- A single freshly opened record, input of the C6 counterexample. -/
def openRecordA : RecordedAction :=
  recordActionRecord "A" 0 ActionType.undoCommitA "A" (scenarioPos 0) true

/-- The reflog of the C8 counterexample: a single checkout entry
moving away from `HEAD`. -/
def cexReflog : List ReflogEntry :=
  [{ hash := "abc1234", message := "checkout: moving from HEAD to main" }]

/-- A reflog recording a checkout away from a branch `dead` that no
longer exists. -/
def sampleReflog : List ReflogEntry :=
  [{ hash := "def5678", message := "checkout: moving from dead to main" }]

/-- A completed, undoable sample record used by the C1 witness. -/
def sampleRecord (id hsh : String) : RecordedAction :=
  { id := id
    type := ActionType.undoCommitA
    timestamp := 0
    description := id
    beforeState := { headHash := hsh, branch := some "main" }
    afterState := some { headHash := "zzz", branch := some "main" }
    undoCommand := some ("git reset --hard " ++ hsh)
    canUndo := true }

/-- A two-record history, both records undoable. -/
def sampleHist : List RecordedAction :=
  [sampleRecord "a" "ha", sampleRecord "b" "hb"]

/-! ### Theorems -/

/-- A list has `length == 0` exactly when it `isEmpty`. -/
theorem length_beq_zero_eq_isEmpty {α : Type} (l : List α) :
    (l.length == 0) = l.isEmpty := by
  cases l <;> rfl

/-- Counting the kept elements of a keep-if `filterMap`. -/
theorem length_filterMap_if {α β : Type} (p : α → Bool) (f : α → β)
    (l : List α) :
    (l.filterMap (fun a => if p a then some (f a) else none)).length
      = (l.filter p).length := by
  induction l with
  | nil => rfl
  | cons a l ih =>
    by_cases h : p a <;>
      simp [List.filterMap_cons, List.filter_cons, h, ih]

/-- C7: every safety evaluator result satisfies the invariant
`safe == blockers.isEmpty`; the `safe` flag is computed from the
blockers alone, so warnings never affect it. -/
theorem safety_results_safe_iff_no_blockers (repo : RepoModel)
    (mode : ResetMode) (commitCount : Nat) (name : String) :
    (checkBeforeReset repo mode commitCount).safe
      = (checkBeforeReset repo mode commitCount).blockers.isEmpty
    ∧ (checkBeforeAmend repo).safe = (checkBeforeAmend repo).blockers.isEmpty
    ∧ (checkBeforeBranchCreate repo name).safe
      = (checkBeforeBranchCreate repo name).blockers.isEmpty := by
  refine ⟨?_, ?_, ?_⟩
  · show ((checkBeforeReset repo mode commitCount).blockers.length == 0) = _
    exact length_beq_zero_eq_isEmpty _
  · unfold checkBeforeAmend getLastCommit
    cases repo.allCommits with
    | nil => rfl
    | cons c cs =>
      show (([] : List String).length == 0) = _
      rfl
  · show ((checkBeforeBranchCreate repo name).blockers.length == 0) = _
    exact length_beq_zero_eq_isEmpty _

/-- C5: after `recordAction` then `completeAction`, `undoCommand` is
present iff `canUndo` holds and HEAD moved between `beforeState` and
`afterState`; with no intervening HEAD change it stays absent. -/
theorem recordComplete_undoCommand_iff (id : String) (ts : Nat)
    (t : ActionType) (d : String) (before now : RepoPos) (canUndo : Bool) :
    ((completeActionRecord now
        (recordActionRecord id ts t d before canUndo)).undoCommand.isSome = true
      ↔ canUndo = true ∧ before.headHash ≠ now.headHash)
    ∧ (completeActionRecord now
        (recordActionRecord id ts t d before canUndo)).afterState = some now
    ∧ (before.headHash = now.headHash →
        (completeActionRecord now
          (recordActionRecord id ts t d before canUndo)).undoCommand = none) := by
  by_cases hcu : canUndo = true <;> by_cases hh : before.headHash = now.headHash <;>
    simp [completeActionRecord, recordActionRecord, hcu, hh]

/-- C5 witness: completing a record with no intervening HEAD change
leaves `undoCommand` absent. -/
theorem recordComplete_undoCommand_witness :
    (completeActionRecord posA
      (recordActionRecord "id1" 0 ActionType.undoCommitA "noop" posA true)).undoCommand
      = none :=
  (recordComplete_undoCommand_iff "id1" 0 ActionType.undoCommitA "noop"
    posA posA true).2.2 rfl

/-- C4: `checkBeforeReset` blocks (and is unsafe) whenever fewer than
`commitCount` commits exist; a hard reset over uncommitted changes
contributes a warning while the blockers are independent of the
uncommitted-changes flag; there is exactly one warning per pushed
commit in the affected range on top of the optional hard-reset warning;
and on a blocked result `showSafetyWarnings` answers `false`, so
`undoLastCommit` issues no reset primitive at all. -/
theorem checkBeforeReset_gate (repo : RepoModel) (mode : ResetMode)
    (commitCount : Nat) (userProceeds : Bool) :
    (repo.allCommits.length < commitCount →
       (checkBeforeReset repo mode commitCount).blockers ≠ []
       ∧ (checkBeforeReset repo mode commitCount).safe = false)
    ∧ (mode = ResetMode.hard → repo.hasUncommittedChanges = true →
       "Hard reset will discard all uncommitted changes"
         ∈ (checkBeforeReset repo mode commitCount).warnings)
    ∧ (∀ b : Bool,
       (checkBeforeReset { repo with hasUncommittedChanges := b }
          mode commitCount).blockers
         = (checkBeforeReset repo mode commitCount).blockers)
    ∧ ((checkBeforeReset repo mode commitCount).warnings.length
        = (if mode = ResetMode.hard ∧ repo.hasUncommittedChanges = true
            then 1 else 0)
          + ((getRecentCommits repo commitCount).filter
              (fun c => repo.pushed c.hash)).length)
    ∧ (repo.allCommits.length < commitCount →
       showSafetyWarnings (checkBeforeReset repo mode commitCount)
         userProceeds = false
       ∧ undoLastCommitRun repo mode commitCount userProceeds = []) := by
  have hblock : repo.allCommits.length < commitCount →
      (checkBeforeReset repo mode commitCount).blockers ≠ []
      ∧ (checkBeforeReset repo mode commitCount).safe = false := by
    intro hlt
    have hc : (getRecentCommits repo commitCount).length < commitCount := by
      simp only [getRecentCommits, List.length_take]
      omega
    constructor
    · simp [checkBeforeReset, hc]
    · simp [checkBeforeReset, hc]
  refine ⟨hblock, ?_, ?_, ?_, ?_⟩
  · intro hm hch
    simp [checkBeforeReset, hm, hch]
  · intro b
    rfl
  · have hpush :
        ((getRecentCommits repo commitCount).filterMap (fun c =>
          if repo.pushed c.hash then
            some ("Commit \"" ++ c.message.take 50 ++
              "\" has been pushed. Undoing will require force push.")
          else none)).length
        = ((getRecentCommits repo commitCount).filter
            (fun c => repo.pushed c.hash)).length :=
      length_filterMap_if _ _ _
    by_cases hm : mode = ResetMode.hard <;>
      by_cases hch : repo.hasUncommittedChanges = true <;>
      simp [checkBeforeReset, hm, hch, hpush, Nat.add_comm]
  · intro hlt
    have hsafe : (checkBeforeReset repo mode commitCount).safe = false :=
      (hblock hlt).2
    have hssw : showSafetyWarnings (checkBeforeReset repo mode commitCount)
        userProceeds = false := by
      simp [showSafetyWarnings, hsafe]
    exact ⟨hssw, by simp [undoLastCommitRun, hssw]⟩

/-- C4 witness: on a repository with no commits, undoing one commit is
blocked and the reset primitive is never issued. -/
theorem checkBeforeReset_gate_witness :
    (checkBeforeReset repoEmpty ResetMode.hard 1).safe = false
    ∧ undoLastCommitRun repoEmpty ResetMode.hard 1 true = [] :=
  ⟨((checkBeforeReset_gate repoEmpty ResetMode.hard 1 true).1 (by decide)).2,
   ((checkBeforeReset_gate repoEmpty ResetMode.hard 1 true).2.2.2.2 (by decide)).2⟩

/-- When every cherry-pick succeeds, the loop picks every commit in
order and reports no failure. -/
theorem cherryPickLoop_all_ok (cherryOk : String → Bool) (l : List Commit)
    (h : ∀ c ∈ l, cherryOk c.hash = true) :
    cherryPickLoop cherryOk l
      = (l.map (fun c => GitEffect.cherryPick c.hash), none) := by
  induction l with
  | nil => rfl
  | cons a l ih =>
    have ha : cherryOk a.hash = true := h a (List.mem_cons_self a l)
    have hl : ∀ c ∈ l, cherryOk c.hash = true :=
      fun c hc => h c (List.mem_cons_of_mem a hc)
    simp [cherryPickLoop, ha, ih hl]

/-- When some cherry-pick fails, the loop performs exactly the
successful prefix plus the first failing attempt, and stops there. -/
theorem cherryPickLoop_first_fail (cherryOk : String → Bool)
    (l : List Commit) (c : Commit)
    (h : l.find? (fun x => !cherryOk x.hash) = some c) :
    cherryPickLoop cherryOk l
      = ((l.takeWhile (fun x => cherryOk x.hash)).map
          (fun x => GitEffect.cherryPick x.hash)
          ++ [GitEffect.cherryPick c.hash], some c.hash) := by
  induction l with
  | nil => simp [List.find?] at h
  | cons a l ih =>
    by_cases ha : cherryOk a.hash = true
    · have h' : l.find? (fun x => !cherryOk x.hash) = some c := by
        simpa [List.find?, ha] using h
      simp [cherryPickLoop, ha, ih h', List.takeWhile_cons]
    · have hab : cherryOk a.hash = false := by
        cases hx : cherryOk a.hash
        · rfl
        · exact absurd hx ha
      have hca : a = c := by
        simpa [List.find?, hab] using h
      subst hca
      simp [cherryPickLoop, hab, List.takeWhile_cons]

/-- `branchAfter` distributes over concatenation of effect lists. -/
theorem branchAfter_append (b : String) (l₁ l₂ : List GitEffect) :
    branchAfter b (l₁ ++ l₂) = branchAfter (branchAfter b l₁) l₂ := by
  induction l₁ generalizing b with
  | nil => rfl
  | cons e l ih => cases e <;> simp [branchAfter, ih]

/-- Cherry-picks do not change the current branch. -/
theorem branchAfter_map_cherryPick (b : String) (l : List Commit)
    (f : Commit → String) :
    branchAfter b (l.map (fun c => GitEffect.cherryPick (f c))) = b := by
  induction l generalizing b with
  | nil => rfl
  | cons a l ih => simp [branchAfter, ih]

/-- C3: on a fully successful run, the mutation phase of `moveCommits`
is exactly (1) create-or-checkout the target branch (created at
`currentBranch~N`), (2) one cherry-pick per selected commit in
oldest-first order (`commits` is newest-first, so the reversed take),
(3) checkout back to the source branch, (4) hard reset by `N` — in that
order, followed by the ledger completion. -/
theorem moveCommits_success_sequence (commits : List Commit) (count : Nat)
    (isNew : Bool) (targetBranch currentBranch : String)
    (cherryOk : String → Bool)
    (hall : ∀ c ∈ (commits.take count).reverse, cherryOk c.hash = true) :
    moveCommitsRun commits count isNew targetBranch currentBranch cherryOk
      = { effects := moveSetupEffect isNew targetBranch currentBranch count ::
            (((commits.take count).reverse).map
              (fun c => GitEffect.cherryPick c.hash)
              ++ [GitEffect.checkoutBranch currentBranch,
                  GitEffect.hardReset ("HEAD~" ++ toString count)])
          failedCommit := none
          completed := true
          message := "Moved " ++ toString count ++ " commit(s) to \"" ++
            targetBranch ++ "\"" } := by
  simp only [moveCommitsRun]
  rw [cherryPickLoop_all_ok _ _ hall]

/-- C3 witness: moving both commits of a two-commit history onto a new
branch `feat` runs the four steps in order. -/
theorem moveCommits_success_witness :
    moveCommitsRun [sampleCommit2, sampleCommit1] 2 true "feat" "main"
        (fun _ => true)
      = { effects := [GitEffect.checkoutNewBranch "feat" "main~2",
            GitEffect.cherryPick "h1", GitEffect.cherryPick "h2",
            GitEffect.checkoutBranch "main", GitEffect.hardReset "HEAD~2"]
          failedCommit := none
          completed := true
          message := "Moved 2 commit(s) to \"feat\"" } :=
  (moveCommits_success_sequence [sampleCommit2, sampleCommit1] 2 true "feat"
    "main" (fun _ => true) (by decide)).trans (by decide)

/-- C2: when a cherry-pick fails, the run stops at that commit: the
effects are the branch switch, the successful prefix and the single
failing attempt — no rollback, no later cherry-pick, no checkout back
to the source branch and no reset of it — the user is left on the
target branch, the ledger completion is skipped, and the message names
the failing commit. -/
theorem moveCommits_failure_halts (commits : List Commit) (count : Nat)
    (isNew : Bool) (targetBranch currentBranch : String)
    (cherryOk : String → Bool) (c : Commit)
    (hfind : ((commits.take count).reverse).find?
        (fun x => !cherryOk x.hash) = some c)
    (hne : targetBranch ≠ currentBranch) :
    (moveCommitsRun commits count isNew targetBranch currentBranch
        cherryOk).failedCommit = some c.hash
    ∧ (moveCommitsRun commits count isNew targetBranch currentBranch
        cherryOk).completed = false
    ∧ (moveCommitsRun commits count isNew targetBranch currentBranch
        cherryOk).message
      = "Cherry-pick failed for commit " ++ c.hash.take 7 ++
        ". Please resolve conflicts manually."
    ∧ (moveCommitsRun commits count isNew targetBranch currentBranch
        cherryOk).effects
      = moveSetupEffect isNew targetBranch currentBranch count ::
          ((((commits.take count).reverse).takeWhile
            (fun x => cherryOk x.hash)).map
            (fun x => GitEffect.cherryPick x.hash)
            ++ [GitEffect.cherryPick c.hash])
    ∧ (∀ ref, GitEffect.hardReset ref
        ∉ (moveCommitsRun commits count isNew targetBranch currentBranch
            cherryOk).effects)
    ∧ GitEffect.checkoutBranch currentBranch
        ∉ (moveCommitsRun commits count isNew targetBranch currentBranch
            cherryOk).effects
    ∧ branchAfter currentBranch
        (moveCommitsRun commits count isNew targetBranch currentBranch
          cherryOk).effects = targetBranch := by
  have hloop := cherryPickLoop_first_fail cherryOk
    ((commits.take count).reverse) c hfind
  have hrun : moveCommitsRun commits count isNew targetBranch currentBranch
      cherryOk
      = { effects := moveSetupEffect isNew targetBranch currentBranch count ::
            ((((commits.take count).reverse).takeWhile
              (fun x => cherryOk x.hash)).map
              (fun x => GitEffect.cherryPick x.hash)
              ++ [GitEffect.cherryPick c.hash])
          failedCommit := some c.hash
          completed := false
          message := "Cherry-pick failed for commit " ++ c.hash.take 7 ++
            ". Please resolve conflicts manually." } := by
    simp only [moveCommitsRun]
    rw [hloop]
  refine ⟨by rw [hrun], by rw [hrun], by rw [hrun], by rw [hrun], ?_, ?_, ?_⟩
  · intro ref hmem
    rw [hrun] at hmem
    simp only [List.mem_cons, List.mem_append, List.mem_map,
      List.mem_singleton, List.not_mem_nil, or_false] at hmem
    rcases hmem with hs | ⟨x, _, hx⟩ | hx
    · unfold moveSetupEffect at hs
      by_cases hnew : isNew = true <;> simp [hnew] at hs
    · exact GitEffect.noConfusion hx.symm
    · exact GitEffect.noConfusion hx
  · intro hmem
    rw [hrun] at hmem
    simp only [List.mem_cons, List.mem_append, List.mem_map,
      List.mem_singleton, List.not_mem_nil, or_false] at hmem
    rcases hmem with hs | ⟨x, _, hx⟩ | hx
    · unfold moveSetupEffect at hs
      by_cases hnew : isNew = true <;> simp [hnew] at hs
      exact hne hs.symm
    · exact GitEffect.noConfusion hx.symm
    · exact GitEffect.noConfusion hx
  · rw [hrun]
    show branchAfter currentBranch
      (moveSetupEffect isNew targetBranch currentBranch count :: _) = _
    have hsetup : ∀ b : String,
        branchAfter b [moveSetupEffect isNew targetBranch currentBranch count]
          = targetBranch := by
      intro b
      unfold moveSetupEffect
      by_cases hnew : isNew = true <;> simp [hnew, branchAfter]
    have : (moveSetupEffect isNew targetBranch currentBranch count ::
        ((((commits.take count).reverse).takeWhile
          (fun x => cherryOk x.hash)).map
          (fun x => GitEffect.cherryPick x.hash)
          ++ [GitEffect.cherryPick c.hash]))
        = [moveSetupEffect isNew targetBranch currentBranch count]
          ++ ((((commits.take count).reverse).takeWhile
            (fun x => cherryOk x.hash)).map
            (fun x => GitEffect.cherryPick x.hash)
            ++ [GitEffect.cherryPick c.hash]) := rfl
    rw [this, branchAfter_append, hsetup, branchAfter_append,
      branchAfter_map_cherryPick]
    rfl

/-- C2 witness: with the newer commit applying cleanly and the older
one conflicting, the run stops after the failing attempt, leaving the
user on `feat` with `main` untouched. -/
theorem moveCommits_failure_witness :
    (moveCommitsRun [sampleCommit2, sampleCommit1] 2 false "feat" "main"
        (fun h => h == "h1")).effects
      = [GitEffect.checkoutBranch "feat", GitEffect.cherryPick "h1",
         GitEffect.cherryPick "h2"]
    ∧ (moveCommitsRun [sampleCommit2, sampleCommit1] 2 false "feat" "main"
        (fun h => h == "h1")).completed = false
    ∧ branchAfter "main"
        (moveCommitsRun [sampleCommit2, sampleCommit1] 2 false "feat" "main"
          (fun h => h == "h1")).effects = "feat" := by
  have h := moveCommits_failure_halts [sampleCommit2, sampleCommit1] 2 false
    "feat" "main" (fun h => h == "h1") sampleCommit2 (by decide) (by decide)
  exact ⟨h.2.2.2.1.trans (by decide), h.2.1, h.2.2.2.2.2.2⟩

/-- Appending a record with no `undoCommand` never changes which record
`getLastUndoableAction` finds: the scan skips it. -/
theorem getLastUndoable_append_skip (h : List RecordedAction)
    (a : RecordedAction) (ha : undoable a = false) :
    getLastUndoableAction (h ++ [a]) = getLastUndoableAction h := by
  unfold getLastUndoableAction
  rw [List.reverse_append]
  simp only [List.reverse_singleton, List.singleton_append]
  rw [List.find?_cons_of_neg]
  simp [ha]

/-- C10: when a cherry-pick fails inside `moveCommits`, the record
opened by `recordAction` stays in the history with `afterState` and
`undoCommand` unset (the early return skips `completeAction`), and
`getLastUndoableAction` — hence `undoLastAction` — skips it forever. -/
theorem failed_move_leaves_open_record (hist : List RecordedAction)
    (maxHist : Nat) (id : String) (ts : Nat) (before afterPos : RepoPos)
    (commits : List Commit) (count : Nat) (isNew : Bool)
    (targetBranch currentBranch : String) (cherryOk : String → Bool)
    (c : Commit)
    (hfind : ((commits.take count).reverse).find?
        (fun x => !cherryOk x.hash) = some c) :
    (moveCommitsWithLedger hist maxHist id ts before afterPos commits count
        isNew targetBranch currentBranch cherryOk).1
      = hist ++ [recordActionRecord id ts ActionType.moveCommitsA
          ("Moved " ++ toString count ++ " commit(s) to " ++ targetBranch)
          before true]
    ∧ (recordActionRecord id ts ActionType.moveCommitsA
        ("Moved " ++ toString count ++ " commit(s) to " ++ targetBranch)
        before true).afterState = none
    ∧ (recordActionRecord id ts ActionType.moveCommitsA
        ("Moved " ++ toString count ++ " commit(s) to " ++ targetBranch)
        before true).undoCommand = none
    ∧ getLastUndoableAction
        ((moveCommitsWithLedger hist maxHist id ts before afterPos commits
          count isNew targetBranch currentBranch cherryOk).1)
      = getLastUndoableAction hist
    ∧ (moveCommitsWithLedger hist maxHist id ts before afterPos commits count
        isNew targetBranch currentBranch cherryOk).2.completed = false := by
  have hloop := cherryPickLoop_first_fail cherryOk
    ((commits.take count).reverse) c hfind
  have hfail : (moveCommitsRun commits count isNew targetBranch currentBranch
      cherryOk).failedCommit = some c.hash := by
    simp only [moveCommitsRun]
    rw [hloop]
  have hledger : (moveCommitsWithLedger hist maxHist id ts before afterPos
      commits count isNew targetBranch currentBranch cherryOk)
      = (hist ++ [recordActionRecord id ts ActionType.moveCommitsA
          ("Moved " ++ toString count ++ " commit(s) to " ++ targetBranch)
          before true],
        moveCommitsRun commits count isNew targetBranch currentBranch
          cherryOk) := by
    simp only [moveCommitsWithLedger]
    rw [hfail]
    rfl
  refine ⟨by rw [hledger], rfl, rfl, ?_, ?_⟩
  · rw [hledger]
    exact getLastUndoable_append_skip hist _ rfl
  · rw [hledger]
    simp only [moveCommitsRun]
    rw [hloop]

/-- C10 witness: a concrete failing move appends an open record that
the undo scan skips. -/
theorem failed_move_leaves_open_record_witness :
    (moveCommitsWithLedger [] 50 "id9" 0 posA posB [sampleCommit2, sampleCommit1]
        2 false "feat" "main" (fun h => h == "h1")).1
      = [recordActionRecord "id9" 0 ActionType.moveCommitsA
          "Moved 2 commit(s) to feat" posA true]
    ∧ getLastUndoableAction
        ((moveCommitsWithLedger [] 50 "id9" 0 posA posB
          [sampleCommit2, sampleCommit1] 2 false "feat" "main"
          (fun h => h == "h1")).1) = none := by
  have h := failed_move_leaves_open_record [] 50 "id9" 0 posA posB
    [sampleCommit2, sampleCommit1] 2 false "feat" "main" (fun h => h == "h1")
    sampleCommit2 (by decide)
  exact ⟨h.1.trans (by decide), h.2.2.2.1.trans (by decide)⟩

/-- C6 counterexample: with a configured maximum of `0`, the persisted
log after `completeAction` still holds one record — JavaScript
`slice(-0)` is `slice(0)` and keeps everything — so "at most M records"
fails at `M = 0`. -/
theorem history_cap_counterexample :
    ¬ ((completeLastAction (scenarioPos 1) 0 [openRecordA]).length ≤ 0) := by
  decide

/-- C6 (amended to `M ≥ 1`): after every `completeAction` the persisted
log holds at most `M` records, and it is a suffix — the most recently
recorded records in chronological order — of the full updated log; in
the capped-at-2 scenario with actions `A`, `B`, `C` the persisted log
is exactly `B, C`. -/
theorem history_cap_fifo (maxHist : Nat) (hpos : 1 ≤ maxHist)
    (now : RepoPos) (h : List RecordedAction) :
    (completeLastAction now maxHist h).length ≤ maxHist
    ∧ (∃ pre, pre ++ completeLastAction now maxHist h
        = updateLast (completeActionRecord now) h)
    ∧ scenarioLog.map (fun a => a.id) = ["B", "C"] := by
  have hne : ¬ maxHist = 0 := by omega
  refine ⟨?_, ?_, by decide⟩
  · unfold completeLastAction trimActions
    rw [if_neg hne, List.length_drop]
    omega
  · unfold completeLastAction trimActions
    rw [if_neg hne]
    exact ⟨_, List.take_append_drop _ _⟩

/-- C6 witness: the cap-2 scenario at a concrete call. -/
theorem history_cap_fifo_witness :
    (completeLastAction (scenarioPos 1) 2 [openRecordA]).length ≤ 2
    ∧ scenarioLog.map (fun a => a.id) = ["B", "C"] :=
  ⟨(history_cap_fifo 2 (by decide) (scenarioPos 1) [openRecordA]).1,
   (history_cap_fifo 2 (by decide) (scenarioPos 1) [openRecordA]).2.2⟩

/-- C9 counterexample: a failure message containing the mixed-case
`Conflict` is a case variant of `conflict`, yet `performContinue`
re-raises it instead of routing it as unresolved conflicts — the code
only tests the two exact spellings `conflict` and `CONFLICT`. -/
theorem continue_conflict_case_counterexample :
    ¬ (matchesConflictCaseInsensitive "Conflict: merge failed" = true →
        (performContinue OngoingOp.merge (some "Conflict: merge failed")).1
          = ContinueOutcome.unresolvedConflicts) := by
  decide

/-- C9 (amended to the exact spellings): a continue failure whose
message includes `conflict` or `CONFLICT` is routed back as the
unresolved-conflicts condition, any other failure is re-raised as the
raw error, and in each case the only primitive issued is the continue
attempt itself (nothing else changes repository state). -/
theorem performContinue_conflict_routing (op : OngoingOp) (msg : String) :
    ((containsSub "conflict" msg = true ∨ containsSub "CONFLICT" msg = true) →
       performContinue op (some msg)
         = (ContinueOutcome.unresolvedConflicts, continueEffects op))
    ∧ (containsSub "conflict" msg = false →
       containsSub "CONFLICT" msg = false →
       performContinue op (some msg)
         = (ContinueOutcome.raised msg, continueEffects op))
    ∧ performContinue op none = (ContinueOutcome.success, continueEffects op) := by
  refine ⟨?_, ?_, rfl⟩
  · intro hc
    unfold performContinue
    rcases hc with hc | hc <;> simp [hc]
  · intro h1 h2
    unfold performContinue
    simp [h1, h2]

/-- C9 witness: a lowercase conflict message is routed back as
unresolved conflicts. -/
theorem performContinue_conflict_witness :
    performContinue OngoingOp.merge
        (some "error: could not apply; fix conflicts")
      = (ContinueOutcome.unresolvedConflicts,
         [GitEffect.continueOp OngoingOp.merge]) :=
  (performContinue_conflict_routing OngoingOp.merge
    "error: could not apply; fix conflicts").1 (Or.inl (by decide))

/-- Membership in the `deletedBranches` accumulator walk: a pair is
collected iff it was already in the accumulator, or its key passes all
the filters, is not already keyed in the accumulator, and its hash is
the one of the first matching move. -/
theorem mem_collectDeleted (existing : List String) (A hsh : String) :
    ∀ (moves : List BranchMove) (acc : List (String × String)),
    ((A, hsh) ∈ collectDeleted existing acc moves ↔
      (A, hsh) ∈ acc ∨
        ((∀ p ∈ acc, p.1 ≠ A)
          ∧ existing.contains A = false ∧ A ≠ "HEAD" ∧ isHashLike A = false
          ∧ ((moves.find? (fun m => m.fromBranch == A)).map
              (fun m => m.hash)) = some hsh)) := by
  intro moves
  induction moves with
  | nil =>
    intro acc
    simp [collectDeleted]
  | cons m rest ih =>
    intro acc
    by_cases hab : m.fromBranch = A
    · subst hab
      simp only [collectDeleted]
      split_ifs with h1 h2
      · rw [ih]
        simp only [Bool.and_eq_true, Bool.not_eq_true', Option.isNone_iff_eq_none,
          List.find?_eq_none, beq_iff_eq] at h1
        simp only [Bool.and_eq_true, Bool.not_eq_true', bne_iff_ne, ne_eq] at h2
        obtain ⟨hex, habs⟩ := h1
        obtain ⟨hhead, hhash⟩ := h2
        have hpc : ((m :: rest).find? (fun x => x.fromBranch == m.fromBranch))
            = some m := List.find?_cons_of_pos _ (by simp)
        have hK : ¬ (∀ p ∈ acc ++ [(m.fromBranch, m.hash)],
            p.1 ≠ m.fromBranch) := fun hall =>
          (hall (m.fromBranch, m.hash) (by simp)) rfl
        constructor
        · rintro (hmem | ⟨hK', _⟩)
          · rcases List.mem_append.mp hmem with h | h
            · exact Or.inl h
            · simp only [List.mem_singleton, Prod.mk.injEq, true_and] at h
              subst h
              exact Or.inr ⟨habs, hex, hhead, hhash, by simp [hpc]⟩
          · exact absurd hK' hK
        · rintro (hmem | ⟨_, _, _, _, hF⟩)
          · exact Or.inl (List.mem_append_left _ hmem)
          · have hh : hsh = m.hash := by
              rw [hpc] at hF
              simpa using hF.symm
            subst hh
            exact Or.inl (List.mem_append_right _ (by simp))
      · rw [ih]
        simp only [Bool.and_eq_true, Bool.not_eq_true', bne_iff_ne, ne_eq,
          not_and] at h2
        constructor
        · rintro (hmem | ⟨_, _, hhead, hhash, _⟩)
          · exact Or.inl hmem
          · exact absurd hhash (h2 hhead)
        · rintro (hmem | ⟨_, _, hhead, hhash, _⟩)
          · exact Or.inl hmem
          · exact absurd hhash (h2 hhead)
      · rw [ih]
        simp only [Bool.and_eq_true, Bool.not_eq_true', Option.isNone_iff_eq_none,
          List.find?_eq_none, beq_iff_eq, not_and] at h1
        constructor
        · rintro (hmem | ⟨hK, hex, _⟩)
          · exact Or.inl hmem
          · exact absurd hK (h1 hex)
        · rintro (hmem | ⟨hK, hex, _⟩)
          · exact Or.inl hmem
          · exact absurd hK (h1 hex)
    · have hfind : (m :: rest).find? (fun x => x.fromBranch == A)
          = rest.find? (fun x => x.fromBranch == A) :=
        List.find?_cons_of_neg _ (by simp [hab])
      have hab' : ¬ A = m.fromBranch := fun h => hab h.symm
      simp only [collectDeleted]
      split_ifs with h1 h2
      · rw [ih, hfind]
        constructor
        · rintro (hmem | ⟨hK, hC⟩)
          · rcases List.mem_append.mp hmem with h | h
            · exact Or.inl h
            · exfalso
              simp only [List.mem_singleton, Prod.mk.injEq] at h
              exact hab' h.1
          · exact Or.inr ⟨fun p hp => hK p (List.mem_append_left _ hp), hC⟩
        · rintro (hmem | ⟨hK, hC⟩)
          · exact Or.inl (List.mem_append_left _ hmem)
          · refine Or.inr ⟨?_, hC⟩
            intro p hp
            rcases List.mem_append.mp hp with h | h
            · exact hK p h
            · have hp2 : p = (m.fromBranch, m.hash) := by simpa using h
              rw [hp2]
              exact hab
      · rw [ih, hfind]
      · rw [ih, hfind]

/-- A name is the source of some parsed branch move iff some reflog
entry message matches the checkout pattern with it on the left. -/
theorem branchMoves_key_mem (reflog : List ReflogEntry) (A : String) :
    (∃ m ∈ branchMoves reflog, m.fromBranch = A)
      ↔ (∃ e ∈ reflog, ∃ b, matchMove e.message.toList = some (A, b)) := by
  unfold branchMoves
  constructor
  · rintro ⟨m, hm, hA⟩
    rcases List.mem_filterMap.mp hm with ⟨e, he, hme⟩
    cases hmm : matchMove e.message.toList with
    | none =>
      rw [hmm] at hme
      exact absurd hme (by simp)
    | some p =>
      rw [hmm] at hme
      cases p with
      | mk p1 p2 =>
        have hm2 : (⟨p1, p2, e.hash, e.message⟩ : BranchMove) = m := by
          simpa using hme
        refine ⟨e, he, p2, ?_⟩
        rw [hmm, ← hA, ← hm2]
  · rintro ⟨e, he, b, hmm⟩
    refine ⟨⟨A, b, e.hash, e.message⟩, ?_, rfl⟩
    exact List.mem_filterMap.mpr ⟨e, he, by rw [hmm]; rfl⟩

/-- C8 (amended with the `HEAD` exclusion the source applies): a name
`A` is offered as a deleted branch iff some reflog entry matches
`checkout: moving from A to B`, no branch named `A` exists, `A` is not
the literal `HEAD`, and `A` is not a bare hash; the recorded hash is
the one of the first matching entry in the newest-first scan. -/
theorem deleted_branch_scan (existing : List String)
    (reflog : List ReflogEntry) (A : String) :
    ((∃ hsh, (A, hsh) ∈ deletedBranchesOf existing reflog)
      ↔ ((∃ e ∈ reflog, ∃ b, matchMove e.message.toList = some (A, b))
          ∧ existing.contains A = false ∧ A ≠ "HEAD"
          ∧ isHashLike A = false))
    ∧ (∀ hsh, (A, hsh) ∈ deletedBranchesOf existing reflog →
        ((branchMoves reflog).find? (fun m => m.fromBranch == A)).map
          (fun m => m.hash) = some hsh) := by
  have hcd := mem_collectDeleted existing A
  constructor
  · constructor
    · rintro ⟨hsh, hmem⟩
      have h := (hcd hsh (branchMoves reflog) []).mp hmem
      simp only [List.not_mem_nil, false_or] at h
      obtain ⟨_, hex, hhead, hhash, hfind⟩ := h
      refine ⟨?_, hex, hhead, hhash⟩
      cases hf : (branchMoves reflog).find? (fun m => m.fromBranch == A) with
      | none =>
        rw [hf] at hfind
        exact absurd hfind (by simp)
      | some m0 =>
        have hp := List.find?_some hf
        have hmem0 := List.mem_of_find?_eq_some hf
        exact (branchMoves_key_mem reflog A).mp
          ⟨m0, hmem0, by simpa using hp⟩
    · rintro ⟨hex1, hex, hhead, hhash⟩
      have hx : ∃ m ∈ branchMoves reflog, m.fromBranch = A :=
        (branchMoves_key_mem reflog A).mpr hex1
      have hsome : ((branchMoves reflog).find?
          (fun m => m.fromBranch == A)).isSome := by
        rw [List.find?_isSome]
        obtain ⟨m, hm, hA⟩ := hx
        exact ⟨m, hm, by simp [hA]⟩
      cases hf : (branchMoves reflog).find? (fun m => m.fromBranch == A) with
      | none =>
        rw [hf] at hsome
        simp at hsome
      | some m0 =>
        refine ⟨m0.hash, (hcd m0.hash (branchMoves reflog) []).mpr ?_⟩
        refine Or.inr ⟨by simp, hex, hhead, hhash, by simp [hf]⟩
  · intro hsh hmem
    have h := (hcd hsh (branchMoves reflog) []).mp hmem
    simp only [List.not_mem_nil, false_or] at h
    exact h.2.2.2.2

/-- C8 counterexample: the claim omits the source code exclusion of
the literal name `HEAD`.  The entry `checkout: moving from HEAD to
main` matches the pattern, no branch named `HEAD` exists and `HEAD` is
not a bare hash, yet the scan offers nothing. -/
theorem deleted_branch_scan_counterexample :
    ¬ (∀ (existing : List String) (reflog : List ReflogEntry) (A : String),
        (∃ hsh, (A, hsh) ∈ deletedBranchesOf existing reflog)
          ↔ ((∃ e ∈ reflog, ∃ b, matchMove e.message.toList = some (A, b))
              ∧ existing.contains A = false ∧ isHashLike A = false)) := by
  intro hclaim
  have h := (hclaim [] cexReflog "HEAD").mpr
    ⟨⟨{ hash := "abc1234", message := "checkout: moving from HEAD to main" },
      by decide, "main", by decide⟩, by decide, by decide⟩
  obtain ⟨hsh, hmem⟩ := h
  have hempty : deletedBranchesOf [] cexReflog = [] := by decide
  rw [hempty] at hmem
  exact List.not_mem_nil _ hmem

/-- C8 witness: the deleted branch `dead` is offered with the hash of
its most recent checkout-away entry. -/
theorem deleted_branch_scan_witness :
    ∃ hsh, ("dead", hsh) ∈ deletedBranchesOf ["main"] sampleReflog :=
  (deleted_branch_scan ["main"] sampleReflog "dead").1.mpr
    ⟨⟨{ hash := "def5678", message := "checkout: moving from dead to main" },
      by decide, "main", by decide⟩, by decide, by decide, by decide⟩

/-- When index `i` holds an undoable record and nothing newer is
undoable, the newest-first scan of `getLastUndoableAction` finds
exactly that record. -/
theorem lastUndoable_find (h : List RecordedAction) :
    ∀ (i : Nat) (a : RecordedAction), h.get? i = some a →
    undoable a = true →
    (∀ j b, i < j → h.get? j = some b → undoable b = false) →
    h.reverse.find? undoable = some a := by
  induction h with
  | nil =>
    intro i a hget _ _
    simp at hget
  | cons x rest ih =>
    intro i a hget ha habove
    rw [List.reverse_cons, List.find?_append]
    cases i with
    | zero =>
      have hax : x = a := by simpa using hget
      subst hax
      have hrest : rest.reverse.find? undoable = none := by
        rw [List.find?_eq_none]
        intro b hb
        obtain ⟨n, hn⟩ := List.mem_iff_get?.mp (List.mem_reverse.mp hb)
        simp [habove (n + 1) b (by omega) (by simpa using hn)]
      rw [hrest]
      simp [List.find?, ha]
    | succ n =>
      have hget' : rest.get? n = some a := by simpa using hget
      have habove' : ∀ j b, n < j → rest.get? j = some b →
          undoable b = false := by
        intro j b hj hg
        exact habove (j + 1) b (by omega) (by simpa using hg)
      rw [ih n a hget' ha habove']
      rfl

/-- When index `i` holds an undoable record and nothing newer is
undoable, flipping the last undoable record is exactly `set` at `i`. -/
theorem markLastUndoable_eq_set (h : List RecordedAction) :
    ∀ (i : Nat) (a : RecordedAction), h.get? i = some a →
    undoable a = true →
    (∀ j b, i < j → h.get? j = some b → undoable b = false) →
    markLastUndoable h = h.set i { a with canUndo := false } := by
  induction h with
  | nil =>
    intro i a hget _ _
    simp at hget
  | cons x rest ih =>
    intro i a hget ha habove
    cases i with
    | zero =>
      have hax : x = a := by simpa using hget
      subst hax
      have hany : rest.any undoable = false := by
        rw [List.any_eq_false]
        intro b hb hub
        obtain ⟨n, hn⟩ := List.mem_iff_get?.mp hb
        rw [habove (n + 1) b (by omega) (by simpa using hn)] at hub
        cases hub
      unfold markLastUndoable
      rw [hany]
      simp [ha]
    | succ n =>
      have hget' : rest.get? n = some a := by simpa using hget
      have habove' : ∀ j b, n < j → rest.get? j = some b →
          undoable b = false := by
        intro j b hj hg
        exact habove (j + 1) b (by omega) (by simpa using hg)
      have hany : rest.any undoable = true := by
        rw [List.any_eq_true]
        exact ⟨a, List.mem_iff_get?.mpr ⟨n, hget'⟩, ha⟩
      unfold markLastUndoable
      rw [hany]
      simp [ih n a hget' ha habove']

/-- Trimming does nothing when the log is within the cap. -/
theorem trimActions_of_le (maxHist : Nat) (h : List RecordedAction)
    (hlen : h.length ≤ maxHist) : trimActions maxHist h = h := by
  unfold trimActions
  by_cases hm : maxHist = 0
  · rw [if_pos hm]
  · rw [if_neg hm, Nat.sub_eq_zero_of_le hlen, List.drop_zero]

/-- C1: `undoLastAction` on a history within the cap.  With no
undoable record it fails with the distinct no-undoable message and
mutates nothing.  Otherwise, for the most recent record that is
undoable (nothing newer is), it hard-resets to that record's
`beforeState.headHash`, reports success and flips exactly that
record's `canUndo` to false; afterwards, any record a second call
would pick sits strictly earlier in the history and is the
next-most-recent undoable one of the original history — never the same
record again. -/
theorem undoLastAction_spec (maxHist : Nat) (h : List RecordedAction)
    (hlen : h.length ≤ maxHist) :
    ((∀ a ∈ h, undoable a = false) →
       undoLastAction none maxHist h
         = { success := false, message := "No undoable actions in history",
             history := h, resetTo := none })
    ∧ (∀ i a, h.get? i = some a → undoable a = true →
        (∀ j b, i < j → h.get? j = some b → undoable b = false) →
        a.beforeState.headHash ≠ "" →
        (undoLastAction none maxHist h
          = { success := true
              message := "Undid \"" ++ a.description ++ "\""
              history := h.set i { a with canUndo := false }
              resetTo := some a.beforeState.headHash }
        ∧ ∀ i' a',
            (h.set i { a with canUndo := false }).get? i' = some a' →
            undoable a' = true →
            (∀ j b, i' < j →
              (h.set i { a with canUndo := false }).get? j = some b →
              undoable b = false) →
            (i' < i ∧ h.get? i' = some a'
              ∧ ∀ k bk, i' < k → k < i → h.get? k = some bk →
                  undoable bk = false))) := by
  constructor
  · intro hnone
    have hfind : getLastUndoableAction h = none := by
      unfold getLastUndoableAction
      rw [List.find?_eq_none]
      intro b hb
      simp [hnone b (List.mem_reverse.mp hb)]
    simp only [undoLastAction, hfind]
  · intro i a hget ha habove hhash
    have hfind : getLastUndoableAction h = some a :=
      lastUndoable_find h i a hget ha habove
    have hmark := markLastUndoable_eq_set h i a hget ha habove
    have htrim : trimActions maxHist (markLastUndoable h)
        = h.set i { a with canUndo := false } := by
      rw [hmark]
      exact trimActions_of_le _ _ (by rw [List.length_set]; exact hlen)
    constructor
    · simp only [undoLastAction, hfind]
      rw [if_neg hhash, htrim]
    · intro i' a' hget' ha' habove'
      have hlti : i < h.length := by
        rcases List.get?_eq_some.mp hget with ⟨hx, _⟩
        exact hx
      have hne : i' ≠ i := by
        intro heq
        subst heq
        have hset : (h.set i' { a with canUndo := false }).get? i'
            = some { a with canUndo := false } :=
          List.get?_set_eq_of_lt _ (by simpa using hlti)
        rw [hset] at hget'
        have haa : a' = { a with canUndo := false } := by
          exact (Option.some_inj.mp hget').symm
        rw [haa] at ha'
        simp [undoable] at ha'
      have hgi' : h.get? i' = some a' := by
        rw [← List.get?_set_ne ({ a with canUndo := false }) h (Ne.symm hne)]
        exact hget'
      have hlt : i' < i := by
        rcases Nat.lt_or_ge i' i with hx | hx
        · exact hx
        · have hgt : i < i' := by omega
          have hfa := habove i' a' hgt hgi'
          rw [hfa] at ha'
          cases ha'
      refine ⟨hlt, hgi', ?_⟩
      intro k bk hik hki hgk
      have hks : (h.set i { a with canUndo := false }).get? k = h.get? k :=
        List.get?_set_ne _ h (by omega)
      exact habove' k bk hik (by rw [hks]; exact hgk)

/-- C1 witness: on a two-record history with both records undoable and
the cap respected, the call reverts the newest record only. -/
theorem undoLastAction_spec_witness :
    undoLastAction none 2 sampleHist
      = { success := true, message := "Undid \"b\""
          history := [sampleRecord "a" "ha",
            { sampleRecord "b" "hb" with canUndo := false }]
          resetTo := some "hb" } := by
  have habove : ∀ j b, 1 < j → sampleHist.get? j = some b →
      undoable b = false := by
    intro j b hj hg
    obtain ⟨k, rfl⟩ : ∃ k, j = k + 2 := ⟨j - 2, by omega⟩
    simp [sampleHist, List.get?] at hg
  have hmain := ((undoLastAction_spec 2 sampleHist (by decide)).2 1
    (sampleRecord "b" "hb") (by decide) (by decide) habove (by decide)).1
  exact hmain.trans (by decide)

end GitPanic
